import Mathlib

/-!
Verification of the range-query and test-pool engine of `quran-mastery`
(`src/types.ts` together with the range/navigation utility module).

The data model (`Ayah`, `TestPoolRange`) and every function below are a
shallow embedding of the TypeScript source: JS numbers become `Int`,
strings become `String`, `undefined`-returning lookups become `Option`,
`Array.prototype.filter`/`find` become `List.filter`/`List.find?`, the
`Map<string, Ayah>` used by `buildTestPool` becomes an association list
with JS `Map.set` semantics (replace in place, else append; iteration in
insertion order), and the stable `Array.prototype.sort` with comparator
`(a, b) => a.global_order - b.global_order` becomes the stable
`List.insertionSort` on `a.global_order ≤ b.global_order`.
-/

structure Ayah where
  verse_key : String
  surah : Int
  ayah : Int
  text_indopak : String
  page_13line : Int
  line_numbers : List Int
  global_order : Int
  juz_number : Int
  ruku_global : Int
  ruku_in_juz : Int
  is_ruku_start : Bool
  is_page_start : Bool
  is_page_end : Bool
deriving DecidableEq, Repr

/-- The tagged union `TestPoolRange = AyahRange | RukuRange | JuzRange`. -/
inductive TestPoolRange where
  | ayahSpan (startSurah startAyah endSurah endAyah : Int)
  | rukuSpan (startJuz startRuku endJuz endRuku : Int)
  | juzSpan (startJuz endJuz : Int)
deriving DecidableEq, Repr

inductive Direction where
  | forward
  | backward
deriving DecidableEq, Repr

/-- Comparison relation of the pool sort: the JS comparator
`(a, b) => a.global_order - b.global_order`. -/
def ordLE (a b : Ayah) : Prop := a.global_order ≤ b.global_order

/-- Strict version of `ordLE`, the ordering the spec asserts of pools. -/
def ordLT (a b : Ayah) : Prop := a.global_order < b.global_order

instance : DecidableRel ordLE := fun a b =>
  inferInstanceAs (Decidable (a.global_order ≤ b.global_order))

instance : DecidableRel ordLT := fun a b =>
  inferInstanceAs (Decidable (a.global_order < b.global_order))

instance : IsTotal Ayah ordLE := ⟨fun a b => Int.le_total a.global_order b.global_order⟩

instance : IsTrans Ayah ordLE := ⟨fun _ _ _ h1 h2 => le_trans h1 h2⟩

instance : IsAntisymm Ayah ordLT :=
  ⟨fun _ _ h1 h2 => absurd (lt_trans h1 h2) (lt_irrefl _)⟩

/-- `get_ayahs_between_verse_keys` from the source: locate both endpoint
verses by `verse_key`; empty if either is missing or inverted; otherwise
filter by the inclusive `global_order` interval. -/
def get_ayahs_between_verse_keys (ayahs : List Ayah) (startKey endKey : String) : List Ayah :=
  match ayahs.find? (fun a => decide (a.verse_key = startKey)),
        ayahs.find? (fun a => decide (a.verse_key = endKey)) with
  | some startAyah, some endAyah =>
    if startAyah.global_order > endAyah.global_order then []
    else ayahs.filter (fun a =>
      decide (startAyah.global_order ≤ a.global_order) &&
      decide (a.global_order ≤ endAyah.global_order))
  | _, _ => []

/-- `get_ayahs_for_ruku` from the source. -/
def get_ayahs_for_ruku (ayahs : List Ayah) (juz rukuInJuz : Int) : List Ayah :=
  ayahs.filter (fun a => decide (a.juz_number = juz) && decide (a.ruku_in_juz = rukuInJuz))

/-- `get_ayahs_between_rukus` from the source: resolve both endpoint
(juz, ruku_in_juz) pairs to verse sets; empty if either set is empty;
span from the first verse of the start set to the last verse of the end
set; empty if inverted. -/
def get_ayahs_between_rukus (ayahs : List Ayah)
    (startJuz startRuku endJuz endRuku : Int) : List Ayah :=
  match (get_ayahs_for_ruku ayahs startJuz startRuku).head?,
        (get_ayahs_for_ruku ayahs endJuz endRuku).getLast? with
  | some s, some e =>
    if s.global_order > e.global_order then []
    else ayahs.filter (fun a =>
      decide (s.global_order ≤ a.global_order) && decide (a.global_order ≤ e.global_order))
  | _, _ => []

/-- `get_ayahs_for_juz_range` from the source. -/
def get_ayahs_for_juz_range (ayahs : List Ayah) (startJuz endJuz : Int) : List Ayah :=
  if startJuz > endJuz then []
  else ayahs.filter (fun a => decide (startJuz ≤ a.juz_number) && decide (a.juz_number ≤ endJuz))

/-- The template-string key `"${surah}:${ayah}"` built by `buildTestPool`
for an ayah-span descriptor. -/
def mkKey (surah ayah : Int) : String := toString surah ++ ":" ++ toString ayah

/-- One step of `poolMap.set(a.verse_key, a)`: JS `Map.set` replaces the
value of an existing key in place and otherwise appends a new entry. -/
def poolInsert (m : List (String × Ayah)) (a : Ayah) : List (String × Ayah) :=
  if m.any (fun p => decide (p.1 = a.verse_key)) then
    m.map (fun p => if p.1 = a.verse_key then (p.1, a) else p)
  else m ++ [(a.verse_key, a)]

/-- The per-descriptor dispatch inside `buildTestPool`. -/
def resolveRange (ayahs : List Ayah) (r : TestPoolRange) : List Ayah :=
  match r with
  | .ayahSpan ss sa es ea =>
    get_ayahs_between_verse_keys ayahs (mkKey ss sa) (mkKey es ea)
  | .rukuSpan sj sr ej er => get_ayahs_between_rukus ayahs sj sr ej er
  | .juzSpan sj ej => get_ayahs_for_juz_range ayahs sj ej

/-- The `Map` accumulated by `buildTestPool` over all descriptors. -/
def buildPoolMap (ayahs : List Ayah) (ranges : List TestPoolRange) : List (String × Ayah) :=
  ranges.foldl (fun m r => (resolveRange ayahs r).foldl poolInsert m) []

/-- `buildTestPool` from the source: accumulate every resolved range into
the key-deduplicating map, then sort the values by `global_order`. -/
def buildTestPool (ayahs : List Ayah) (ranges : List TestPoolRange) : List Ayah :=
  List.insertionSort ordLE ((buildPoolMap ayahs ranges).map Prod.snd)

/-- `getNextAyah` from the source. -/
def getNextAyah (ayahs : List Ayah) (current : Ayah) : Option Ayah :=
  ayahs.find? (fun a => decide (a.global_order = current.global_order + 1))

/-- `getPrevAyah` from the source. -/
def getPrevAyah (ayahs : List Ayah) (current : Ayah) : Option Ayah :=
  ayahs.find? (fun a => decide (a.global_order = current.global_order - 1))

/-- `getLastAyahOfRuku` from the source: the verse before the next ruku's
start when one is found, otherwise the last element of the ruku's own
verse list. -/
def getLastAyahOfRuku (ayahs : List Ayah) (rukuGlobal : Int) : Option Ayah :=
  match ayahs.find? (fun a => decide (a.ruku_global = rukuGlobal + 1) && a.is_ruku_start) with
  | some nextRukuStart => getPrevAyah ayahs nextRukuStart
  | none => (ayahs.filter (fun a => decide (a.ruku_global = rukuGlobal))).getLast?

/-- `getNearestRukuBoundary` from the source. The TS return type is
`Ayah`, but on an empty index the JS value is `undefined`; the embedding
returns `Option Ayah` to capture that honestly. -/
def getNearestRukuBoundary (ayahs : List Ayah) (current : Ayah)
    (direction : Direction) : Option Ayah :=
  match direction with
  | .forward =>
    match ayahs.find? (fun a =>
        decide (current.global_order < a.global_order) && a.is_ruku_start) with
    | some nextRuku => some ((getPrevAyah ayahs nextRuku).getD current)
    | none => ayahs.getLast?
  | .backward =>
    match ayahs.reverse.find? (fun a =>
        decide (a.global_order < current.global_order) && a.is_ruku_start) with
    | some prevRuku => some prevRuku
    | none => ayahs.head?

/-! ### Index invariants (spec §3) -/

/-- §3: `global_order` is strictly increasing along the index. -/
def sortedByOrder (ayahs : List Ayah) : Prop :=
  ayahs.Pairwise (fun a b => a.global_order < b.global_order)

/-- §3: `verse_key` is unique — it determines the verse record. -/
def keyInjective (ayahs : List Ayah) : Prop :=
  ∀ a ∈ ayahs, ∀ b ∈ ayahs, a.verse_key = b.verse_key → a = b

/-- The §3 invariants a "verse index" always satisfies in the spec:
strictly ascending unique `global_order` and unique `verse_key`. -/
def validIndex (ayahs : List Ayah) : Prop :=
  sortedByOrder ayahs ∧ keyInjective ayahs

/-- §3: `ruku_global` is monotonically non-decreasing with `global_order`. -/
def rukuMono (ayahs : List Ayah) : Prop :=
  ayahs.Pairwise (fun a b => a.ruku_global ≤ b.ruku_global)

/-- §3: `is_ruku_start` is true exactly on the first verse (by
`global_order`) of its `ruku_global`. -/
def rukuStartIff (ayahs : List Ayah) : Prop :=
  ∀ a ∈ ayahs, (a.is_ruku_start = true ↔
    ∀ b ∈ ayahs, b.ruku_global = a.ruku_global → a.global_order ≤ b.global_order)

/-- The index's `global_order` values are consecutive (no gaps): each
verse's order is its predecessor's plus one.  The spec does NOT require
this of a verse index ("no gaps required"). -/
def consecutiveOrders : List Ayah → Prop
  | a :: b :: t => b.global_order = a.global_order + 1 ∧ consecutiveOrders (b :: t)
  | _ => True

instance consecutiveOrdersDecidable : (l : List Ayah) → Decidable (consecutiveOrders l)
  | [] => isTrue trivial
  | [_] => isTrue trivial
  | _ :: b :: t =>
    have : Decidable (consecutiveOrders (b :: t)) := consecutiveOrdersDecidable (b :: t)
    instDecidableAnd

instance (l : List Ayah) : Decidable (sortedByOrder l) :=
  inferInstanceAs
    (Decidable (l.Pairwise (fun a b : Ayah => a.global_order < b.global_order)))

instance (l : List Ayah) : Decidable (keyInjective l) :=
  inferInstanceAs (Decidable (∀ a ∈ l, ∀ b ∈ l, a.verse_key = b.verse_key → a = b))

instance (l : List Ayah) : Decidable (validIndex l) :=
  inferInstanceAs (Decidable (sortedByOrder l ∧ keyInjective l))

instance (l : List Ayah) : Decidable (rukuMono l) :=
  inferInstanceAs
    (Decidable (l.Pairwise (fun a b : Ayah => a.ruku_global ≤ b.ruku_global)))

instance (l : List Ayah) : Decidable (rukuStartIff l) :=
  inferInstanceAs (Decidable (∀ a ∈ l, (a.is_ruku_start = true ↔
    ∀ b ∈ l, b.ruku_global = a.ruku_global → a.global_order ≤ b.global_order)))

example : get_ayahs_for_juz_range [] 5 3 = [] := by decide

example : buildTestPool [] [] = [] := rfl

/-! ### Order and pairwise helper lemmas -/

lemma mem_pairwise_cases {R : Ayah → Ayah → Prop} {l : List Ayah} (h : l.Pairwise R)
    {x y : Ayah} (hx : x ∈ l) (hy : y ∈ l) : x = y ∨ R x y ∨ R y x := by
  induction l with
  | nil => cases hx
  | cons a t ih =>
    rcases List.pairwise_cons.mp h with ⟨ha, ht⟩
    rcases List.mem_cons.mp hx with hx1 | hx1 <;> rcases List.mem_cons.mp hy with hy1 | hy1
    · exact Or.inl (hx1.trans hy1.symm)
    · refine Or.inr (Or.inl ?_); rw [hx1]; exact ha y hy1
    · refine Or.inr (Or.inr ?_); rw [hy1]; exact ha x hx1
    · exact ih ht hx1 hy1

lemma eq_of_order_eq {ayahs : List Ayah} (hs : sortedByOrder ayahs) {x y : Ayah}
    (hx : x ∈ ayahs) (hy : y ∈ ayahs) (h : x.global_order = y.global_order) : x = y := by
  rcases mem_pairwise_cases hs hx hy with he | hlt | hlt
  · exact he
  · omega
  · omega

lemma order_lt_ruku_le {ayahs : List Ayah} (hs : sortedByOrder ayahs) (hm : rukuMono ayahs)
    {x y : Ayah} (hx : x ∈ ayahs) (hy : y ∈ ayahs)
    (hxy : x.global_order < y.global_order) : x.ruku_global ≤ y.ruku_global := by
  rcases mem_pairwise_cases (hs.and hm) hx hy with he | h2 | h2
  · rw [he]
  · exact h2.2
  · exact absurd h2.1 (by omega)

lemma head_min {l : List Ayah} (h : l.Pairwise ordLT) {w : Ayah}
    (hw : l.head? = some w) : ∀ b ∈ l, w.global_order ≤ b.global_order := by
  cases l with
  | nil => cases hw
  | cons a t =>
    cases hw
    intro b hb
    rcases List.mem_cons.mp hb with hb1 | hb1
    · rw [hb1]
    · exact le_of_lt ((List.pairwise_cons.mp h).1 b hb1)

lemma getLast_max {l : List Ayah} (h : l.Pairwise ordLT) {w : Ayah}
    (hw : l.getLast? = some w) : ∀ b ∈ l, b.global_order ≤ w.global_order := by
  induction l with
  | nil => cases hw
  | cons a t ih =>
    cases t with
    | nil =>
      have hwa : w = a := by simpa using hw.symm
      intro b hb
      rcases List.mem_cons.mp hb with hb1 | hb1
      · rw [hb1, hwa]
      · cases hb1
    | cons c t' =>
      rw [List.getLast?_cons_cons] at hw
      rcases List.pairwise_cons.mp h with ⟨ha, ht⟩
      intro b hb
      have hwmem : w ∈ c :: t' :=
        List.mem_of_mem_getLast? (by rw [hw]; exact rfl)
      rcases List.mem_cons.mp hb with hb1 | hb1
      · rw [hb1]; exact le_of_lt (ha w hwmem)
      · exact ih ht hw b hb1

/-- In a list that is `Pairwise R` for an asymmetric `R`, `find?` returns
the given `R`-least element satisfying the predicate. -/
lemma find?_of_first {R : Ayah → Ayah → Prop} {l : List Ayah} (hs : l.Pairwise R)
    (hasym : ∀ x y, R x y → R y x → False)
    {p : Ayah → Bool} {n : Ayah} (hn : n ∈ l) (hp : p n = true)
    (hmin : ∀ c ∈ l, p c = true → c = n ∨ R n c) :
    l.find? p = some n := by
  induction l with
  | nil => cases hn
  | cons a t ih =>
    rcases List.pairwise_cons.mp hs with ⟨ha, ht⟩
    by_cases hpa : p a = true
    · rw [List.find?_cons_of_pos _ hpa]
      rcases hmin a (List.mem_cons_self a t) hpa with he | hR
      · rw [he]
      · rcases List.mem_cons.mp hn with h1 | h1
        · rw [h1]
        · exact absurd hR (fun hR => hasym a n (ha n h1) hR)
    · have hnt : n ∈ t := by
        rcases List.mem_cons.mp hn with h1 | h1
        · exact absurd (h1 ▸ hp) hpa
        · exact h1
      rw [List.find?_cons_of_neg _ hpa]
      exact ih ht hnt (fun c hc hpc => hmin c (List.mem_cons_of_mem _ hc) hpc)

/-- On a strictly order-sorted list, `find?` for a fixed `global_order`
value returns exactly the member carrying that order. -/
lemma find?_order_eq {ayahs : List Ayah} (hs : sortedByOrder ayahs) {w : Ayah} {k : Int}
    (hw : w ∈ ayahs) (hk : w.global_order = k) :
    ayahs.find? (fun a => decide (a.global_order = k)) = some w := by
  apply find?_of_first hs (fun x y h1 h2 => absurd (lt_trans h1 h2) (lt_irrefl _)) hw
    (by simp [hk])
  intro c hc hpc
  left
  have hco : c.global_order = k := by simpa using hpc
  exact eq_of_order_eq hs hc hw (by omega)

/-- `reverse.find?` on a strictly order-sorted list returns the given
greatest element satisfying the predicate. -/
lemma find?_reverse_of_greatest {ayahs : List Ayah} (hs : sortedByOrder ayahs)
    {p : Ayah → Bool} {n : Ayah} (hn : n ∈ ayahs) (hp : p n = true)
    (hmax : ∀ c ∈ ayahs, p c = true → c = n ∨ c.global_order < n.global_order) :
    ayahs.reverse.find? p = some n := by
  have hrev : ayahs.reverse.Pairwise (fun a b => b.global_order < a.global_order) :=
    List.pairwise_reverse.mpr hs
  apply find?_of_first hrev (fun x y h1 h2 => absurd (lt_trans h1 h2) (lt_irrefl _))
    (List.mem_reverse.mpr hn) hp
  intro c hc hpc
  exact hmax c (List.mem_reverse.mp hc) hpc

/-- In a gapless, strictly sorted index, any member that is not the
order-maximum has a member one order above it. -/
lemma exists_succ_order {l : List Ayah} (hs : sortedByOrder l) (hc : consecutiveOrders l)
    {v : Ayah} (hv : v ∈ l) (hb : ∃ b ∈ l, v.global_order < b.global_order) :
    ∃ p ∈ l, p.global_order = v.global_order + 1 := by
  induction l with
  | nil => cases hv
  | cons a t ih =>
    rcases List.pairwise_cons.mp hs with ⟨ha, ht⟩
    rcases List.mem_cons.mp hv with hv1 | hv1
    · cases t with
      | nil =>
        exfalso
        rcases hb with ⟨b, hbm, hbo⟩
        rcases List.mem_cons.mp hbm with hb1 | hb1
        · rw [hv1, hb1] at hbo; exact lt_irrefl _ hbo
        · cases hb1
      | cons c t' =>
        refine ⟨c, List.mem_cons_of_mem _ (List.mem_cons_self c t'), ?_⟩
        rw [hv1]
        exact hc.1
    · cases t with
      | nil => cases hv1
      | cons c t' =>
        have hbt : ∃ b ∈ c :: t', v.global_order < b.global_order := by
          rcases hb with ⟨b, hbm, hbo⟩
          rcases List.mem_cons.mp hbm with hb1 | hb1
          · exfalso
            have := ha v hv1
            rw [hb1] at hbo
            omega
          · exact ⟨b, hb1, hbo⟩
        obtain ⟨p, hp1, hp2⟩ := ih ht hc.2 hv1 hbt
        exact ⟨p, List.mem_cons_of_mem _ hp1, hp2⟩

/-- In a gapless, strictly sorted index, any member that is not the
order-minimum has a member one order below it. -/
lemma exists_pred_order {l : List Ayah} (hs : sortedByOrder l) (hc : consecutiveOrders l)
    {v : Ayah} (hv : v ∈ l) (hb : ∃ b ∈ l, b.global_order < v.global_order) :
    ∃ p ∈ l, p.global_order = v.global_order - 1 := by
  induction l with
  | nil => cases hv
  | cons a t ih =>
    rcases List.pairwise_cons.mp hs with ⟨ha, ht⟩
    rcases List.mem_cons.mp hv with hv1 | hv1
    · exfalso
      rcases hb with ⟨b, hbm, hbo⟩
      rcases List.mem_cons.mp hbm with hb1 | hb1
      · rw [hv1, hb1] at hbo; exact lt_irrefl _ hbo
      · have := ha b hb1
        rw [hv1] at hbo
        omega
    · cases t with
      | nil => cases hv1
      | cons c t' =>
        rcases List.mem_cons.mp hv1 with hv2 | hv2
        · refine ⟨a, List.mem_cons_self a _, ?_⟩
          have := hc.1
          rw [hv2]
          omega
        · have hbt : ∃ b ∈ c :: t', b.global_order < v.global_order := by
            refine ⟨c, List.mem_cons_self c t', ?_⟩
            exact (List.pairwise_cons.mp ht).1 v hv2
          obtain ⟨p, hp1, hp2⟩ := ih ht hc.2 hv1 hbt
          exact ⟨p, List.mem_cons_of_mem _ hp1, hp2⟩

/-! ### Pool map machinery -/

/-- Well-formedness of the accumulated pool map: keys are distinct, each
entry's key is its value's `verse_key`, and each value is an index
member. -/
def poolWF (ayahs : List Ayah) (m : List (String × Ayah)) : Prop :=
  (m.map Prod.fst).Nodup ∧ ∀ p ∈ m, p.1 = p.2.verse_key ∧ p.2 ∈ ayahs

lemma poolInsert_WF {ayahs : List Ayah} {m : List (String × Ayah)} {a : Ayah}
    (h : poolWF ayahs m) (ha : a ∈ ayahs) : poolWF ayahs (poolInsert m a) := by
  obtain ⟨hnd, hent⟩ := h
  unfold poolInsert
  by_cases hany : m.any (fun p => decide (p.1 = a.verse_key)) = true
  · rw [if_pos hany]
    constructor
    · have hkeys : (m.map (fun p => if p.1 = a.verse_key then (p.1, a) else p)).map Prod.fst
          = m.map Prod.fst := by
        rw [List.map_map]
        apply List.map_congr_left
        intro p _
        by_cases hpk : p.1 = a.verse_key
        · simp [hpk]
        · simp [hpk]
      rw [hkeys]; exact hnd
    · intro q hq
      rcases List.mem_map.mp hq with ⟨p, hp, hqe⟩
      by_cases hpk : p.1 = a.verse_key
      · rw [if_pos hpk] at hqe
        rw [← hqe]
        exact ⟨hpk, ha⟩
      · rw [if_neg hpk] at hqe
        rw [← hqe]
        exact hent p hp
  · rw [if_neg hany]
    constructor
    · have hmap1 : (m ++ [(a.verse_key, a)]).map Prod.fst
          = m.map Prod.fst ++ [a.verse_key] := by
        rw [List.map_append]; rfl
      rw [hmap1, (List.perm_append_singleton _ _).nodup_iff, List.nodup_cons]
      refine ⟨?_, hnd⟩
      intro hmem
      rcases List.mem_map.mp hmem with ⟨p, hp, hpe⟩
      exact hany (List.any_eq_true.mpr ⟨p, hp, by simp [hpe]⟩)
    · intro q hq
      rcases List.mem_append.mp hq with h1 | h1
      · exact hent q h1
      · rw [List.mem_singleton.mp h1]
        exact ⟨rfl, ha⟩

lemma foldl_poolInsert_WF {ayahs : List Ayah} {l : List Ayah} :
    ∀ {m : List (String × Ayah)}, poolWF ayahs m → (∀ x ∈ l, x ∈ ayahs) →
      poolWF ayahs (l.foldl poolInsert m) := by
  induction l with
  | nil => intro m h _; exact h
  | cons a t ih =>
    intro m h hl
    rw [List.foldl_cons]
    exact ih (poolInsert_WF h (hl a (List.mem_cons_self a t)))
      (fun x hx => hl x (List.mem_cons_of_mem _ hx))

lemma get_ayahs_between_verse_keys_subset {ayahs : List Ayah} {sk ek : String} :
    ∀ a ∈ get_ayahs_between_verse_keys ayahs sk ek, a ∈ ayahs := by
  intro a h
  unfold get_ayahs_between_verse_keys at h
  split at h
  · split at h
    · cases h
    · exact (List.mem_filter.mp h).1
  · cases h

lemma get_ayahs_between_rukus_subset {ayahs : List Ayah} {sj sr ej er : Int} :
    ∀ a ∈ get_ayahs_between_rukus ayahs sj sr ej er, a ∈ ayahs := by
  intro a h
  unfold get_ayahs_between_rukus at h
  split at h
  · split at h
    · cases h
    · exact (List.mem_filter.mp h).1
  · cases h

lemma get_ayahs_for_juz_range_subset {ayahs : List Ayah} {sj ej : Int} :
    ∀ a ∈ get_ayahs_for_juz_range ayahs sj ej, a ∈ ayahs := by
  intro a h
  unfold get_ayahs_for_juz_range at h
  split at h
  · cases h
  · exact (List.mem_filter.mp h).1

lemma resolveRange_subset (ayahs : List Ayah) (r : TestPoolRange) :
    ∀ a ∈ resolveRange ayahs r, a ∈ ayahs := by
  intro a h
  cases r with
  | ayahSpan ss sa es ea => exact get_ayahs_between_verse_keys_subset a h
  | rukuSpan sj sr ej er => exact get_ayahs_between_rukus_subset a h
  | juzSpan sj ej => exact get_ayahs_for_juz_range_subset a h

lemma buildPoolMap_WF (ayahs : List Ayah) (ranges : List TestPoolRange) :
    poolWF ayahs (buildPoolMap ayahs ranges) := by
  unfold buildPoolMap
  suffices h : ∀ (rs : List TestPoolRange) (m : List (String × Ayah)), poolWF ayahs m →
      poolWF ayahs (rs.foldl (fun m r => (resolveRange ayahs r).foldl poolInsert m) m) by
    exact h ranges [] ⟨by simp, by simp⟩
  intro rs
  induction rs with
  | nil => intro m h; exact h
  | cons r t ih =>
    intro m h
    rw [List.foldl_cons]
    exact ih _ (foldl_poolInsert_WF h (resolveRange_subset ayahs r))

lemma buildTestPool_pairwise_lt {ayahs : List Ayah} (hs : sortedByOrder ayahs)
    (ranges : List TestPoolRange) :
    (buildTestPool ayahs ranges).Pairwise ordLT := by
  have hWF := buildPoolMap_WF ayahs ranges
  have hne : ((buildPoolMap ayahs ranges).map Prod.snd).Pairwise
      (fun a b => a.global_order ≠ b.global_order) := by
    rw [List.pairwise_map]
    have hkeys : (buildPoolMap ayahs ranges).Pairwise (fun p q => p.1 ≠ q.1) := by
      have h1 := hWF.1
      rwa [List.Nodup, List.pairwise_map] at h1
    have hkeys' := List.Pairwise.and_mem.mp hkeys
    refine hkeys'.imp ?_
    rintro p q ⟨hp, hq, hne⟩
    intro hord
    have hp' := hWF.2 p hp
    have hq' := hWF.2 q hq
    have : p.2 = q.2 := eq_of_order_eq hs hp'.2 hq'.2 hord
    exact hne (by rw [hp'.1, hq'.1, this])
  have hsorted := List.sorted_insertionSort ordLE ((buildPoolMap ayahs ranges).map Prod.snd)
  have hperm := List.perm_insertionSort ordLE ((buildPoolMap ayahs ranges).map Prod.snd)
  have hne_pool : (buildTestPool ayahs ranges).Pairwise
      (fun a b => a.global_order ≠ b.global_order) :=
    (hperm.pairwise_iff (fun h => h.symm)).mpr hne
  have hsorted' : (buildTestPool ayahs ranges).Pairwise ordLE := hsorted
  exact (hsorted'.and hne_pool).imp (fun h => lt_of_le_of_ne h.1 h.2)

lemma buildTestPool_keys_nodup (ayahs : List Ayah) (ranges : List TestPoolRange) :
    ((buildTestPool ayahs ranges).map Ayah.verse_key).Nodup := by
  have hWF := buildPoolMap_WF ayahs ranges
  have hperm := List.perm_insertionSort ordLE ((buildPoolMap ayahs ranges).map Prod.snd)
  have hmap : ((buildPoolMap ayahs ranges).map Prod.snd).map Ayah.verse_key
      = (buildPoolMap ayahs ranges).map Prod.fst := by
    rw [List.map_map]
    apply List.map_congr_left
    intro p hp
    exact ((hWF.2 p hp).1).symm
  have hp2 : ((buildTestPool ayahs ranges).map Ayah.verse_key).Perm
      ((buildPoolMap ayahs ranges).map Prod.fst) := by
    rw [← hmap]
    exact hperm.map _
  rw [hp2.nodup_iff]
  exact hWF.1

/-- When a key-unique index is the value source, overwriting an existing
key is a no-op: the stored value already equals the inserted one. -/
lemma poolInsert_of_existing {ayahs : List Ayah} {m : List (String × Ayah)} {a : Ayah}
    (hk : keyInjective ayahs) (hwf : poolWF ayahs m) (ha : a ∈ ayahs)
    (hex : m.any (fun p => decide (p.1 = a.verse_key)) = true) :
    poolInsert m a = m ∧ a ∈ m.map Prod.snd := by
  constructor
  · unfold poolInsert
    rw [if_pos hex]
    have hid : ∀ p ∈ m, (if p.1 = a.verse_key then (p.1, a) else p) = p := by
      intro p hp
      by_cases hpk : p.1 = a.verse_key
      · rw [if_pos hpk]
        obtain ⟨h1, h2⟩ := hwf.2 p hp
        have hpa : p.2 = a := hk p.2 h2 a ha (by rw [← h1]; exact hpk)
        rw [← hpa]
      · rw [if_neg hpk]
    rw [List.map_congr_left hid]
    simp
  · rcases List.any_eq_true.mp hex with ⟨p, hp, hpk⟩
    have hpk' : p.1 = a.verse_key := by simpa using hpk
    obtain ⟨h1, h2⟩ := hwf.2 p hp
    have hpa : p.2 = a := hk p.2 h2 a ha (by rw [← h1]; exact hpk')
    exact List.mem_map.mpr ⟨p, hp, hpa⟩

lemma mem_poolInsert_values {ayahs : List Ayah} {m : List (String × Ayah)} {a : Ayah}
    (hk : keyInjective ayahs) (hwf : poolWF ayahs m) (ha : a ∈ ayahs) (b : Ayah) :
    b ∈ (poolInsert m a).map Prod.snd ↔ b = a ∨ b ∈ m.map Prod.snd := by
  by_cases hex : m.any (fun p => decide (p.1 = a.verse_key)) = true
  · obtain ⟨heq, hmem⟩ := poolInsert_of_existing hk hwf ha hex
    rw [heq]
    constructor
    · exact Or.inr
    · rintro (rfl | h)
      · exact hmem
      · exact h
  · unfold poolInsert
    rw [if_neg hex, List.map_append]
    have h2 : ([(a.verse_key, a)]).map Prod.snd = [a] := rfl
    rw [h2, List.mem_append, List.mem_singleton]
    tauto

lemma mem_foldl_poolInsert {ayahs : List Ayah} (hk : keyInjective ayahs) {l : List Ayah} :
    ∀ {m : List (String × Ayah)}, poolWF ayahs m → (∀ x ∈ l, x ∈ ayahs) → ∀ b,
      (b ∈ (l.foldl poolInsert m).map Prod.snd ↔ b ∈ l ∨ b ∈ m.map Prod.snd) := by
  induction l with
  | nil =>
    intro m _ _ b
    simp
  | cons a t ih =>
    intro m hwf hl b
    rw [List.foldl_cons]
    rw [ih (poolInsert_WF hwf (hl a (List.mem_cons_self a t)))
      (fun x hx => hl x (List.mem_cons_of_mem _ hx)) b]
    rw [mem_poolInsert_values hk hwf (hl a (List.mem_cons_self a t)) b]
    rw [List.mem_cons]
    tauto

/-- Membership characterization of `buildTestPool` on a key-unique index:
a verse is in the pool exactly when some descriptor resolves to it. -/
lemma mem_buildTestPool {ayahs : List Ayah} (hk : keyInjective ayahs)
    (ranges : List TestPoolRange) (b : Ayah) :
    b ∈ buildTestPool ayahs ranges ↔ ∃ r ∈ ranges, b ∈ resolveRange ayahs r := by
  unfold buildTestPool
  rw [(List.perm_insertionSort ordLE _).mem_iff]
  unfold buildPoolMap
  suffices h : ∀ (rs : List TestPoolRange) (m : List (String × Ayah)), poolWF ayahs m →
      (b ∈ ((rs.foldl (fun m r => (resolveRange ayahs r).foldl poolInsert m) m).map Prod.snd) ↔
        (∃ r ∈ rs, b ∈ resolveRange ayahs r) ∨ b ∈ m.map Prod.snd) by
    rw [h ranges [] ⟨by simp, by simp⟩]
    simp
  intro rs
  induction rs with
  | nil =>
    intro m _
    simp
  | cons r t ih =>
    intro m hwf
    rw [List.foldl_cons]
    rw [ih _ (foldl_poolInsert_WF hwf (resolveRange_subset ayahs r))]
    rw [mem_foldl_poolInsert hk hwf (resolveRange_subset ayahs r) b]
    constructor
    · rintro ((⟨q, hq, hb⟩) | hb | hb)
      · exact Or.inl ⟨q, List.mem_cons_of_mem _ hq, hb⟩
      · exact Or.inl ⟨r, List.mem_cons_self r t, hb⟩
      · exact Or.inr hb
    · rintro ((⟨q, hq, hb⟩) | hb)
      · rcases List.mem_cons.mp hq with h1 | h1
        · exact Or.inr (Or.inl (h1 ▸ hb))
        · exact Or.inl ⟨q, h1, hb⟩
      · exact Or.inr (Or.inr hb)

/-- Two pools over the same strictly sorted index with the same members
are equal: both are strictly sorted by `global_order`, hence `Nodup`. -/
lemma pool_eq_of_mem_iff {ayahs : List Ayah} (hs : sortedByOrder ayahs)
    {r1 r2 : List TestPoolRange}
    (h : ∀ a, a ∈ buildTestPool ayahs r1 ↔ a ∈ buildTestPool ayahs r2) :
    buildTestPool ayahs r1 = buildTestPool ayahs r2 := by
  have h1 := buildTestPool_pairwise_lt hs r1
  have h2 := buildTestPool_pairwise_lt hs r2
  have hn1 : (buildTestPool ayahs r1).Nodup :=
    h1.imp (fun hlt he => absurd (he ▸ hlt) (lt_irrefl _))
  have hn2 : (buildTestPool ayahs r2).Nodup :=
    h2.imp (fun hlt he => absurd (he ▸ hlt) (lt_irrefl _))
  have hperm : (buildTestPool ayahs r1).Perm (buildTestPool ayahs r2) := by
    apply List.perm_of_nodup_nodup_toFinset_eq hn1 hn2
    apply Finset.ext
    intro a
    rw [List.mem_toFinset, List.mem_toFinset]
    exact h a
  exact List.eq_of_perm_of_sorted hperm h1 h2

/-! ### Concrete data for witnesses and counterexamples -/

/-- Build an `Ayah` record positionally: key, surah, ayah, global order,
ruku id, ruku ordinal in juz, ruku-start flag, page flags; juz 1,
page 1, empty rendering data throughout. -/
def mkA (vk : String) (s a go rg rj : Int) (rs ps pe : Bool) : Ayah :=
  Ayah.mk vk s a "" 1 [] go 1 rg rj rs ps pe

def sA1 : Ayah := mkA "1:1" 1 1 1 1 1 true true false
def sA2 : Ayah := mkA "1:2" 1 2 2 1 1 false false false
def sA3 : Ayah := mkA "1:3" 1 3 3 1 1 false false false
def sA4 : Ayah := mkA "1:4" 1 4 4 2 2 true false false
def sA5 : Ayah := mkA "1:5" 1 5 5 2 2 false false false
def sA6 : Ayah := mkA "1:6" 1 6 6 2 2 false false false
def sA7 : Ayah := mkA "1:7" 1 7 7 2 2 false false false
def sA8 : Ayah := mkA "1:8" 1 8 8 3 3 true false false
def sA9 : Ayah := mkA "1:9" 1 9 9 3 3 false false false
def sA10 : Ayah := mkA "1:10" 1 10 10 3 3 false false true

/-- The spec §8 example scenario: verses ordered 1..10 with sub-section
starts at orders 1, 4 and 8. -/
def scenario : List Ayah := [sA1, sA2, sA3, sA4, sA5, sA6, sA7, sA8, sA9, sA10]

def gb1 : Ayah := mkA "1:1" 1 1 1 1 1 true true false
def gb2 : Ayah := mkA "1:2" 1 2 3 1 1 false false false
def gb3 : Ayah := mkA "2:1" 2 1 5 2 2 true false true

/-- A verse index with non-consecutive `global_order` values (1, 3, 5),
legal under spec §3 ("no gaps required"): ruku 1 holds orders 1 and 3,
ruku 2 starts at order 5. -/
def gapIndex : List Ayah := [gb1, gb2, gb3]

/-! ### Claims about the pool builder -/

/-- C1: On a strictly order-sorted index, every `buildTestPool` output is
sorted strictly ascending by `global_order` and carries no duplicate
`verse_key`; the empty descriptor list yields the empty pool. -/
theorem buildTestPool_sorted_nodup (ayahs : List Ayah) (ranges : List TestPoolRange)
    (hs : sortedByOrder ayahs) :
    (buildTestPool ayahs ranges).Pairwise (fun a b => a.global_order < b.global_order) ∧
    ((buildTestPool ayahs ranges).map Ayah.verse_key).Nodup ∧
    buildTestPool ayahs [] = [] :=
  ⟨buildTestPool_pairwise_lt hs ranges, buildTestPool_keys_nodup ayahs ranges, rfl⟩

theorem buildTestPool_sorted_nodup_witness :
    sortedByOrder scenario ∧
    ((buildTestPool scenario [TestPoolRange.juzSpan 1 1]).Pairwise
        (fun a b => a.global_order < b.global_order) ∧
      ((buildTestPool scenario [TestPoolRange.juzSpan 1 1]).map Ayah.verse_key).Nodup ∧
      buildTestPool scenario [] = []) :=
  ⟨by decide, buildTestPool_sorted_nodup scenario [TestPoolRange.juzSpan 1 1] (by decide)⟩

/-- C7: on a valid index the pool is unchanged by duplicating the
descriptor list or permuting it. -/
theorem buildTestPool_idempotent_perm (ayahs : List Ayah) (h : validIndex ayahs)
    (d1 d1' : List TestPoolRange) (hp : d1'.Perm d1) :
    buildTestPool ayahs (d1 ++ d1) = buildTestPool ayahs d1 ∧
    buildTestPool ayahs d1' = buildTestPool ayahs d1 := by
  obtain ⟨hs, hk⟩ := h
  constructor
  · apply pool_eq_of_mem_iff hs
    intro a
    rw [mem_buildTestPool hk, mem_buildTestPool hk]
    constructor
    · rintro ⟨r, hr, ha⟩
      rcases List.mem_append.mp hr with h1 | h1 <;> exact ⟨r, h1, ha⟩
    · rintro ⟨r, hr, ha⟩
      exact ⟨r, List.mem_append.mpr (Or.inl hr), ha⟩
  · apply pool_eq_of_mem_iff hs
    intro a
    rw [mem_buildTestPool hk, mem_buildTestPool hk]
    constructor
    · rintro ⟨r, hr, ha⟩
      exact ⟨r, hp.mem_iff.mp hr, ha⟩
    · rintro ⟨r, hr, ha⟩
      exact ⟨r, hp.mem_iff.mpr hr, ha⟩

theorem buildTestPool_idempotent_perm_witness :
    validIndex scenario ∧
    ([TestPoolRange.rukuSpan 1 2 1 2, TestPoolRange.juzSpan 1 1].Perm
      [TestPoolRange.juzSpan 1 1, TestPoolRange.rukuSpan 1 2 1 2]) ∧
    (buildTestPool scenario
        ([TestPoolRange.juzSpan 1 1, TestPoolRange.rukuSpan 1 2 1 2] ++
         [TestPoolRange.juzSpan 1 1, TestPoolRange.rukuSpan 1 2 1 2])
      = buildTestPool scenario [TestPoolRange.juzSpan 1 1, TestPoolRange.rukuSpan 1 2 1 2] ∧
     buildTestPool scenario [TestPoolRange.rukuSpan 1 2 1 2, TestPoolRange.juzSpan 1 1]
      = buildTestPool scenario [TestPoolRange.juzSpan 1 1, TestPoolRange.rukuSpan 1 2 1 2]) :=
  ⟨by decide, by decide,
   buildTestPool_idempotent_perm scenario (by decide) _ _ (by decide)⟩

/-- C8: on a valid index the membership of `buildTestPool (d1 ++ d2)` is
the union of the memberships of the two sub-pools. -/
theorem buildTestPool_union (ayahs : List Ayah) (h : validIndex ayahs)
    (d1 d2 : List TestPoolRange) (a : Ayah) :
    a ∈ buildTestPool ayahs (d1 ++ d2) ↔
      a ∈ buildTestPool ayahs d1 ∨ a ∈ buildTestPool ayahs d2 := by
  rw [mem_buildTestPool h.2, mem_buildTestPool h.2, mem_buildTestPool h.2]
  constructor
  · rintro ⟨r, hr, ha⟩
    rcases List.mem_append.mp hr with h1 | h1
    · exact Or.inl ⟨r, h1, ha⟩
    · exact Or.inr ⟨r, h1, ha⟩
  · rintro (⟨r, hr, ha⟩ | ⟨r, hr, ha⟩)
    · exact ⟨r, List.mem_append.mpr (Or.inl hr), ha⟩
    · exact ⟨r, List.mem_append.mpr (Or.inr hr), ha⟩

theorem buildTestPool_union_witness :
    validIndex scenario ∧
    (sA1 ∈ buildTestPool scenario
        ([TestPoolRange.juzSpan 1 1] ++ [TestPoolRange.rukuSpan 1 2 1 2]) ↔
      sA1 ∈ buildTestPool scenario [TestPoolRange.juzSpan 1 1] ∨
      sA1 ∈ buildTestPool scenario [TestPoolRange.rukuSpan 1 2 1 2]) :=
  ⟨by decide,
   buildTestPool_union scenario (by decide)
     [TestPoolRange.juzSpan 1 1] [TestPoolRange.rukuSpan 1 2 1 2] sA1⟩

/-- C9: `get_ayahs_for_juz_range` is empty when the division span is
inverted and otherwise holds exactly the verses whose `juz_number` lies
in the inclusive span. -/
theorem get_ayahs_for_juz_range_correct (ayahs : List Ayah) (startJuz endJuz : Int) :
    (startJuz > endJuz → get_ayahs_for_juz_range ayahs startJuz endJuz = []) ∧
    (startJuz ≤ endJuz → ∀ a, a ∈ get_ayahs_for_juz_range ayahs startJuz endJuz ↔
      a ∈ ayahs ∧ startJuz ≤ a.juz_number ∧ a.juz_number ≤ endJuz) := by
  constructor
  · intro hgt
    unfold get_ayahs_for_juz_range
    rw [if_pos hgt]
  · intro hle a
    unfold get_ayahs_for_juz_range
    rw [if_neg (by omega)]
    rw [List.mem_filter]
    simp

theorem get_ayahs_for_juz_range_correct_witness :
    get_ayahs_for_juz_range scenario 5 3 = [] ∧
    (sA1 ∈ get_ayahs_for_juz_range scenario 1 1 ↔
      sA1 ∈ scenario ∧ (1 : Int) ≤ sA1.juz_number ∧ sA1.juz_number ≤ 1) :=
  ⟨(get_ayahs_for_juz_range_correct scenario 5 3).1 (by decide),
   (get_ayahs_for_juz_range_correct scenario 1 1).2 (by decide) sA1⟩

/-- C10: every verse of every pool is a member of the input index; the
engine never constructs or modifies verse records. -/
theorem buildTestPool_subset (ayahs : List Ayah) (ranges : List TestPoolRange)
    (a : Ayah) (ha : a ∈ buildTestPool ayahs ranges) : a ∈ ayahs := by
  unfold buildTestPool at ha
  have hperm := List.perm_insertionSort ordLE ((buildPoolMap ayahs ranges).map Prod.snd)
  have hmem := hperm.mem_iff.mp ha
  rcases List.mem_map.mp hmem with ⟨p, hp, he⟩
  have h2 := (buildPoolMap_WF ayahs ranges).2 p hp
  rw [← he]
  exact h2.2

theorem buildTestPool_subset_witness :
    sA1 ∈ buildTestPool scenario [TestPoolRange.juzSpan 1 1] ∧ sA1 ∈ scenario :=
  ⟨by decide, buildTestPool_subset scenario [TestPoolRange.juzSpan 1 1] sA1 (by decide)⟩

/-! ### Claims about the span resolvers -/

/-- C5: on a sorted index, `get_ayahs_between_verse_keys` is empty when
either key is missing or the span is inverted, and otherwise holds
exactly the verses with `global_order` in the inclusive span, in
ascending order. -/
theorem get_ayahs_between_verse_keys_correct (ayahs : List Ayah) (startKey endKey : String)
    (hs : sortedByOrder ayahs) :
    ((ayahs.find? (fun a => decide (a.verse_key = startKey)) = none ∨
      ayahs.find? (fun a => decide (a.verse_key = endKey)) = none) →
      get_ayahs_between_verse_keys ayahs startKey endKey = []) ∧
    (∀ s e, ayahs.find? (fun a => decide (a.verse_key = startKey)) = some s →
        ayahs.find? (fun a => decide (a.verse_key = endKey)) = some e →
      (s.global_order > e.global_order →
        get_ayahs_between_verse_keys ayahs startKey endKey = []) ∧
      (s.global_order ≤ e.global_order →
        (get_ayahs_between_verse_keys ayahs startKey endKey).Pairwise ordLT ∧
        ∀ a, a ∈ get_ayahs_between_verse_keys ayahs startKey endKey ↔
          a ∈ ayahs ∧ s.global_order ≤ a.global_order ∧ a.global_order ≤ e.global_order)) := by
  constructor
  · intro h
    rcases h with h | h
    · simp only [get_ayahs_between_verse_keys, h]
    · cases h1 : ayahs.find? (fun a => decide (a.verse_key = startKey)) with
      | none => simp only [get_ayahs_between_verse_keys, h1]
      | some s => simp only [get_ayahs_between_verse_keys, h1, h]
  · intro s e h1 h2
    constructor
    · intro hgt
      simp only [get_ayahs_between_verse_keys, h1, h2]
      rw [if_pos hgt]
    · intro hle
      simp only [get_ayahs_between_verse_keys, h1, h2]
      rw [if_neg (by omega)]
      constructor
      · exact List.Pairwise.sublist (List.filter_sublist _) hs
      · intro a
        rw [List.mem_filter]
        simp [and_assoc]

theorem get_ayahs_between_verse_keys_correct_witness :
    sortedByOrder scenario ∧
    get_ayahs_between_verse_keys scenario "1:5" "1:2" = [] ∧
    ((get_ayahs_between_verse_keys scenario "1:2" "1:5").Pairwise ordLT ∧
      ∀ a, a ∈ get_ayahs_between_verse_keys scenario "1:2" "1:5" ↔
        a ∈ scenario ∧ sA2.global_order ≤ a.global_order ∧
          a.global_order ≤ sA5.global_order) :=
  ⟨by decide,
   ((get_ayahs_between_verse_keys_correct scenario "1:5" "1:2" (by decide)).2 sA5 sA2
      (by decide) (by decide)).1 (by decide),
   ((get_ayahs_between_verse_keys_correct scenario "1:2" "1:5" (by decide)).2 sA2 sA5
      (by decide) (by decide)).2 (by decide)⟩

/-- C2: on a sorted index, `get_ayahs_between_rukus` is empty when either
endpoint (juz, ruku-in-juz) pair matches no verse; otherwise, with the
span anchored at the first verse of the start set and the last verse of
the end set (the set's order-minimum and order-maximum, as the
accompanying bounds show), it is empty when inverted and otherwise holds
exactly the verses with `global_order` in the inclusive span. -/
theorem get_ayahs_between_rukus_correct (ayahs : List Ayah)
    (startJuz startRuku endJuz endRuku : Int) (hs : sortedByOrder ayahs) :
    ((get_ayahs_for_ruku ayahs startJuz startRuku = [] ∨
      get_ayahs_for_ruku ayahs endJuz endRuku = []) →
      get_ayahs_between_rukus ayahs startJuz startRuku endJuz endRuku = []) ∧
    (∀ s e, (get_ayahs_for_ruku ayahs startJuz startRuku).head? = some s →
        (get_ayahs_for_ruku ayahs endJuz endRuku).getLast? = some e →
      (∀ b ∈ get_ayahs_for_ruku ayahs startJuz startRuku,
        s.global_order ≤ b.global_order) ∧
      (∀ b ∈ get_ayahs_for_ruku ayahs endJuz endRuku,
        b.global_order ≤ e.global_order) ∧
      (s.global_order > e.global_order →
        get_ayahs_between_rukus ayahs startJuz startRuku endJuz endRuku = []) ∧
      (s.global_order ≤ e.global_order →
        (get_ayahs_between_rukus ayahs startJuz startRuku endJuz endRuku).Pairwise ordLT ∧
        ∀ a, a ∈ get_ayahs_between_rukus ayahs startJuz startRuku endJuz endRuku ↔
          a ∈ ayahs ∧ s.global_order ≤ a.global_order ∧ a.global_order ≤ e.global_order)) := by
  have hSsort : (get_ayahs_for_ruku ayahs startJuz startRuku).Pairwise ordLT :=
    List.Pairwise.sublist (List.filter_sublist _) hs
  have hEsort : (get_ayahs_for_ruku ayahs endJuz endRuku).Pairwise ordLT :=
    List.Pairwise.sublist (List.filter_sublist _) hs
  constructor
  · intro h
    rcases h with h | h
    · simp only [get_ayahs_between_rukus, h]
      rfl
    · cases h1 : (get_ayahs_for_ruku ayahs startJuz startRuku).head? with
      | none => simp only [get_ayahs_between_rukus, h1]
      | some s =>
        simp only [get_ayahs_between_rukus, h1, h]
        rfl
  · intro s e h1 h2
    refine ⟨head_min hSsort h1, getLast_max hEsort h2, ?_, ?_⟩
    · intro hgt
      simp only [get_ayahs_between_rukus, h1, h2]
      rw [if_pos hgt]
    · intro hle
      simp only [get_ayahs_between_rukus, h1, h2]
      rw [if_neg (by omega)]
      constructor
      · exact List.Pairwise.sublist (List.filter_sublist _) hs
      · intro a
        rw [List.mem_filter]
        simp [and_assoc]

theorem get_ayahs_between_rukus_correct_witness :
    sortedByOrder scenario ∧
    get_ayahs_between_rukus scenario 1 5 1 1 = [] ∧
    (∀ b ∈ get_ayahs_for_ruku scenario 1 1, sA1.global_order ≤ b.global_order) ∧
    ((get_ayahs_between_rukus scenario 1 1 1 2).Pairwise ordLT ∧
      ∀ a, a ∈ get_ayahs_between_rukus scenario 1 1 1 2 ↔
        a ∈ scenario ∧ sA1.global_order ≤ a.global_order ∧
          a.global_order ≤ sA7.global_order) :=
  ⟨by decide,
   (get_ayahs_between_rukus_correct scenario 1 5 1 1 (by decide)).1 (Or.inl (by decide)),
   ((get_ayahs_between_rukus_correct scenario 1 1 1 2 (by decide)).2 sA1 sA7
      (by decide) (by decide)).1,
   ((get_ayahs_between_rukus_correct scenario 1 1 1 2 (by decide)).2 sA1 sA7
      (by decide) (by decide)).2.2.2 (by decide)⟩

/-! ### Claims about the navigation queries -/

/-- C6 as stated fails on a spec-§3-valid index whose `global_order`
has a gap (§3 allows gaps): in `gapIndex` the verse at order 1 is not
the order-maximal verse, yet `getNextAyah` returns `none` because no
verse carries order 2; dually `getPrevAyah` of the order-3 verse returns
`none` though it is not the order-minimal verse. -/
theorem getNextAyah_gap_counterexample :
    validIndex gapIndex ∧ gb1 ∈ gapIndex ∧ gb2 ∈ gapIndex ∧
    gb1.global_order < gb2.global_order ∧
    getNextAyah gapIndex gb1 = none ∧
    getPrevAyah gapIndex gb2 = none := by decide

/-- C6 amended: on a strictly sorted index whose `global_order` values
are consecutive, `getNextAyah` yields the (member) verse one order above
and is `none` exactly on the order-maximal verse; dually `getPrevAyah`
yields the verse one order below and is `none` exactly on the
order-minimal verse. -/
theorem getNextPrevAyah_correct_consecutive (ayahs : List Ayah)
    (hs : sortedByOrder ayahs) (hc : consecutiveOrders ayahs)
    (v : Ayah) (hv : v ∈ ayahs) :
    (∀ w, getNextAyah ayahs v = some w →
      w ∈ ayahs ∧ w.global_order = v.global_order + 1) ∧
    (getNextAyah ayahs v = none ↔ ∀ b ∈ ayahs, b.global_order ≤ v.global_order) ∧
    (∀ w, getPrevAyah ayahs v = some w →
      w ∈ ayahs ∧ w.global_order = v.global_order - 1) ∧
    (getPrevAyah ayahs v = none ↔ ∀ b ∈ ayahs, v.global_order ≤ b.global_order) := by
  refine ⟨?_, ⟨?_, ?_⟩, ?_, ⟨?_, ?_⟩⟩
  · intro w hw
    exact ⟨List.mem_of_find?_eq_some hw, by simpa using List.find?_some hw⟩
  · intro hnone b hb
    by_contra hlt
    push_neg at hlt
    obtain ⟨p, hp, hpo⟩ := exists_succ_order hs hc hv ⟨b, hb, hlt⟩
    have hno := List.find?_eq_none.mp hnone p hp
    simp [hpo] at hno
  · intro hmax
    rw [getNextAyah, List.find?_eq_none]
    intro x hx
    simp only [decide_eq_true_eq]
    intro hxo
    have := hmax x hx
    omega
  · intro w hw
    exact ⟨List.mem_of_find?_eq_some hw, by simpa using List.find?_some hw⟩
  · intro hnone b hb
    by_contra hlt
    push_neg at hlt
    obtain ⟨p, hp, hpo⟩ := exists_pred_order hs hc hv ⟨b, hb, hlt⟩
    have hno := List.find?_eq_none.mp hnone p hp
    simp [hpo] at hno
  · intro hmin
    rw [getPrevAyah, List.find?_eq_none]
    intro x hx
    simp only [decide_eq_true_eq]
    intro hxo
    have := hmin x hx
    omega

theorem getNextPrevAyah_correct_consecutive_witness :
    (sortedByOrder scenario ∧ consecutiveOrders scenario ∧ sA5 ∈ scenario) ∧
    getNextAyah scenario sA5 = some sA6 ∧
    getPrevAyah scenario sA5 = some sA4 ∧
    (getNextAyah scenario sA5 = none ↔
      ∀ b ∈ scenario, b.global_order ≤ sA5.global_order) :=
  ⟨⟨by decide, by decide, by decide⟩, by decide, by decide,
   (getNextPrevAyah_correct_consecutive scenario (by decide) (by decide) sA5
      (by decide)).2.1⟩

lemma getNearestRukuBoundary_forward_eq (ayahs : List Ayah) (current : Ayah) :
    getNearestRukuBoundary ayahs current Direction.forward =
      match ayahs.find? (fun a =>
          decide (current.global_order < a.global_order) && a.is_ruku_start) with
      | some nextRuku => some ((getPrevAyah ayahs nextRuku).getD current)
      | none => ayahs.getLast? := rfl

lemma getNearestRukuBoundary_backward_eq (ayahs : List Ayah) (current : Ayah) :
    getNearestRukuBoundary ayahs current Direction.backward =
      match ayahs.reverse.find? (fun a =>
          decide (a.global_order < current.global_order) && a.is_ruku_start) with
      | some prevRuku => some prevRuku
      | none => ayahs.head? := rfl

/-- C3 as stated fails on the gapped (§3-valid) index: the next
sub-section start after the order-1 verse is `gb3` (order 5); the verse
immediately preceding it by `global_order` is `gb2` (order 3); but the
forward query returns the current verse `gb1`, because no verse carries
order 4 and the code falls back to `current`. -/
theorem getNearestRukuBoundary_gap_counterexample :
    validIndex gapIndex ∧ rukuMono gapIndex ∧ rukuStartIff gapIndex ∧
    gb1 ∈ gapIndex ∧ gb2 ∈ gapIndex ∧ gb3 ∈ gapIndex ∧
    (gb1.global_order < gb3.global_order ∧ gb3.is_ruku_start = true) ∧
    (∀ c ∈ gapIndex, gb1.global_order < c.global_order → c.is_ruku_start = true →
      gb3.global_order ≤ c.global_order) ∧
    (gb2.global_order < gb3.global_order ∧
      ∀ c ∈ gapIndex, c.global_order < gb3.global_order →
        c.global_order ≤ gb2.global_order) ∧
    getNearestRukuBoundary gapIndex gb1 Direction.forward = some gb1 ∧
    gb1 ≠ gb2 := by decide

/-- C3 amended: on a strictly sorted index with consecutive orders, for
any member verse: forward returns the verse one order below the nearest
later sub-section start (the verse with maximal order when no later
start exists), backward returns the nearest earlier sub-section start
(the verse with minimal order when none exists), and both directions
always return a verse. -/
theorem getNearestRukuBoundary_correct_consecutive (ayahs : List Ayah)
    (hs : sortedByOrder ayahs) (hc : consecutiveOrders ayahs)
    (v : Ayah) (hv : v ∈ ayahs) :
    (∀ n ∈ ayahs, v.global_order < n.global_order → n.is_ruku_start = true →
      (∀ c ∈ ayahs, v.global_order < c.global_order → c.is_ruku_start = true →
        n.global_order ≤ c.global_order) →
      ∃ w, getNearestRukuBoundary ayahs v Direction.forward = some w ∧
        w ∈ ayahs ∧ w.global_order = n.global_order - 1) ∧
    ((∀ c ∈ ayahs, v.global_order < c.global_order → c.is_ruku_start = false) →
      ∃ w, getNearestRukuBoundary ayahs v Direction.forward = some w ∧
        w ∈ ayahs ∧ ∀ b ∈ ayahs, b.global_order ≤ w.global_order) ∧
    (∀ n ∈ ayahs, n.global_order < v.global_order → n.is_ruku_start = true →
      (∀ c ∈ ayahs, c.global_order < v.global_order → c.is_ruku_start = true →
        c.global_order ≤ n.global_order) →
      getNearestRukuBoundary ayahs v Direction.backward = some n) ∧
    ((∀ c ∈ ayahs, c.global_order < v.global_order → c.is_ruku_start = false) →
      ∃ w, getNearestRukuBoundary ayahs v Direction.backward = some w ∧
        w ∈ ayahs ∧ ∀ b ∈ ayahs, w.global_order ≤ b.global_order) ∧
    ((getNearestRukuBoundary ayahs v Direction.forward).isSome = true ∧
      (getNearestRukuBoundary ayahs v Direction.backward).isSome = true) := by
  refine ⟨?_, ?_, ?_, ?_, ⟨?_, ?_⟩⟩
  · intro n hn hvn hns hleast
    have hfind : ayahs.find? (fun a =>
        decide (v.global_order < a.global_order) && a.is_ruku_start) = some n := by
      apply find?_of_first hs (fun x y h1 h2 => absurd (lt_trans h1 h2) (lt_irrefl _)) hn
        (by simp [hvn, hns])
      intro c hc hpc
      have hc2 : v.global_order < c.global_order ∧ c.is_ruku_start = true := by
        simpa using hpc
      have hle := hleast c hc hc2.1 hc2.2
      rcases eq_or_lt_of_le hle with he | hlt
      · exact Or.inl (eq_of_order_eq hs hc hn he.symm)
      · exact Or.inr hlt
    obtain ⟨p, hpm, hpo⟩ := exists_pred_order hs hc hn ⟨v, hv, hvn⟩
    refine ⟨p, ?_, hpm, hpo⟩
    rw [getNearestRukuBoundary_forward_eq, hfind]
    have hgp : getPrevAyah ayahs n = some p := find?_order_eq hs hpm hpo
    show some ((getPrevAyah ayahs n).getD v) = some p
    rw [hgp]
    rfl
  · intro hnostart
    have hfind : ayahs.find? (fun a =>
        decide (v.global_order < a.global_order) && a.is_ruku_start) = none := by
      rw [List.find?_eq_none]
      intro x hx
      simp only [Bool.and_eq_true, decide_eq_true_eq, not_and]
      intro hlt
      rw [hnostart x hx hlt]
      simp
    rw [getNearestRukuBoundary_forward_eq, hfind]
    cases hlast : ayahs.getLast? with
    | none =>
      exfalso
      rw [List.getLast?_eq_none_iff] at hlast
      rw [hlast] at hv
      cases hv
    | some w =>
      exact ⟨w, rfl, List.mem_of_mem_getLast? (by rw [hlast]; exact rfl),
        getLast_max hs hlast⟩
  · intro n hn hnv hns hgreat
    have hfind : ayahs.reverse.find? (fun a =>
        decide (a.global_order < v.global_order) && a.is_ruku_start) = some n := by
      apply find?_reverse_of_greatest hs hn (by simp [hnv, hns])
      intro c hc hpc
      have hc2 : c.global_order < v.global_order ∧ c.is_ruku_start = true := by
        simpa using hpc
      have hle := hgreat c hc hc2.1 hc2.2
      rcases eq_or_lt_of_le hle with he | hlt
      · exact Or.inl (eq_of_order_eq hs hc hn he)
      · exact Or.inr hlt
    rw [getNearestRukuBoundary_backward_eq, hfind]
  · intro hnostart
    have hfind : ayahs.reverse.find? (fun a =>
        decide (a.global_order < v.global_order) && a.is_ruku_start) = none := by
      rw [List.find?_eq_none]
      intro x hx
      simp only [Bool.and_eq_true, decide_eq_true_eq, not_and]
      intro hlt
      rw [hnostart x (List.mem_reverse.mp hx) hlt]
      simp
    rw [getNearestRukuBoundary_backward_eq, hfind]
    cases ayahs with
    | nil => cases hv
    | cons a t =>
      refine ⟨a, rfl, List.mem_cons_self a t, ?_⟩
      exact head_min hs rfl
  · rw [getNearestRukuBoundary_forward_eq]
    cases hfind : ayahs.find? (fun a =>
        decide (v.global_order < a.global_order) && a.is_ruku_start) with
    | some n => rfl
    | none =>
      rw [List.getLast?_isSome]
      intro he
      rw [he] at hv
      cases hv
  · rw [getNearestRukuBoundary_backward_eq]
    cases hfind : ayahs.reverse.find? (fun a =>
        decide (a.global_order < v.global_order) && a.is_ruku_start) with
    | some n => rfl
    | none =>
      cases ayahs with
      | nil => cases hv
      | cons a t => rfl

theorem getNearestRukuBoundary_correct_consecutive_witness :
    (sortedByOrder scenario ∧ consecutiveOrders scenario ∧ sA5 ∈ scenario) ∧
    getNearestRukuBoundary scenario sA5 Direction.forward = some sA7 ∧
    getNearestRukuBoundary scenario sA5 Direction.backward = some sA4 ∧
    getNearestRukuBoundary scenario sA1 Direction.backward = some sA1 ∧
    getNearestRukuBoundary scenario sA10 Direction.forward = some sA10 ∧
    ((getNearestRukuBoundary scenario sA5 Direction.forward).isSome = true ∧
      (getNearestRukuBoundary scenario sA5 Direction.backward).isSome = true) :=
  ⟨⟨by decide, by decide, by decide⟩, by decide, by decide, by decide, by decide,
   (getNearestRukuBoundary_correct_consecutive scenario (by decide) (by decide) sA5
      (by decide)).2.2.2.2⟩

/-- C4 as stated fails on the gapped (§3-valid) index: ruku 2 exists, so
`getLastAyahOfRuku` for ruku 1 takes the "prev of next ruku's start"
path from `gb3` (order 5); no verse carries order 4, so it returns
`none` instead of the order-maximal verse of ruku 1 (`gb2`). -/
theorem getLastAyahOfRuku_gap_counterexample :
    validIndex gapIndex ∧ rukuMono gapIndex ∧ rukuStartIff gapIndex ∧
    gb2 ∈ gapIndex ∧ gb2.ruku_global = 1 ∧
    (∀ b ∈ gapIndex, b.ruku_global = 1 → b.global_order ≤ gb2.global_order) ∧
    (∃ b ∈ gapIndex, b.ruku_global = 1 + 1) ∧
    getLastAyahOfRuku gapIndex 1 = none := by decide

/-- C4 amended: on a strictly sorted index with consecutive orders that
satisfies the §3 sub-section invariants (monotone `ruku_global`,
`is_ruku_start` exactly on each ruku's first verse), every present ruku
id resolves through `getLastAyahOfRuku` — along either code path — to
the verse with maximal `global_order` among that ruku's verses. -/
theorem getLastAyahOfRuku_correct_consecutive (ayahs : List Ayah) (s : Int)
    (hs : sortedByOrder ayahs) (hc : consecutiveOrders ayahs)
    (hm : rukuMono ayahs) (hi : rukuStartIff ayahs)
    (hp : ∃ a ∈ ayahs, a.ruku_global = s) :
    ∃ w, getLastAyahOfRuku ayahs s = some w ∧ w ∈ ayahs ∧ w.ruku_global = s ∧
      ∀ b ∈ ayahs, b.ruku_global = s → b.global_order ≤ w.global_order := by
  obtain ⟨q, hq, hqr⟩ := hp
  cases hfind : ayahs.find? (fun a =>
      decide (a.ruku_global = s + 1) && a.is_ruku_start) with
  | some nxt =>
    have hnmem := List.mem_of_find?_eq_some hfind
    have hprop : nxt.ruku_global = s + 1 ∧ nxt.is_ruku_start = true := by
      simpa using List.find?_some hfind
    obtain ⟨hnr, hnst⟩ := hprop
    have hstart := (hi nxt hnmem).mp hnst
    have hbelow : ∀ b ∈ ayahs, b.ruku_global = s →
        b.global_order < nxt.global_order := by
      intro b hb hbr
      rcases mem_pairwise_cases hs hb hnmem with he | hlt | hlt
      · exfalso; rw [he] at hbr; omega
      · exact hlt
      · exfalso
        have := order_lt_ruku_le hs hm hnmem hb hlt
        omega
    obtain ⟨p, hpm, hpo⟩ :=
      exists_pred_order hs hc hnmem ⟨q, hq, hbelow q hq hqr⟩
    have hple : p.ruku_global ≤ s + 1 := by
      have hlt : p.global_order < nxt.global_order := by omega
      have := order_lt_ruku_le hs hm hpm hnmem hlt
      omega
    have hpne : p.ruku_global ≠ s + 1 := by
      intro he
      have := hstart p hpm (by rw [he, hnr])
      omega
    have hpr : p.ruku_global = s := by
      have hqp : q.global_order ≤ p.global_order := by
        have := hbelow q hq hqr
        omega
      rcases eq_or_lt_of_le hqp with he | hlt
      · have hqe : q = p := eq_of_order_eq hs hq hpm he
        rw [← hqe]; exact hqr
      · have := order_lt_ruku_le hs hm hq hpm hlt
        omega
    refine ⟨p, ?_, hpm, hpr, ?_⟩
    · show getLastAyahOfRuku ayahs s = some p
      unfold getLastAyahOfRuku
      rw [hfind]
      exact find?_order_eq hs hpm hpo
    · intro b hb hbr
      have := hbelow b hb hbr
      omega
  | none =>
    have hfil : q ∈ ayahs.filter (fun a => decide (a.ruku_global = s)) :=
      List.mem_filter.mpr ⟨hq, by simp [hqr]⟩
    have hfsort : (ayahs.filter (fun a => decide (a.ruku_global = s))).Pairwise ordLT :=
      List.Pairwise.sublist (List.filter_sublist _) hs
    cases hlast : (ayahs.filter (fun a => decide (a.ruku_global = s))).getLast? with
    | none =>
      exfalso
      rw [List.getLast?_eq_none_iff] at hlast
      rw [hlast] at hfil
      cases hfil
    | some w =>
      have hwmem : w ∈ ayahs.filter (fun a => decide (a.ruku_global = s)) :=
        List.mem_of_mem_getLast? (by rw [hlast]; exact rfl)
      have hw2 := List.mem_filter.mp hwmem
      refine ⟨w, ?_, hw2.1, by simpa using hw2.2, ?_⟩
      · unfold getLastAyahOfRuku
        rw [hfind]
        exact hlast
      · intro b hb hbr
        exact getLast_max hfsort hlast b (List.mem_filter.mpr ⟨hb, by simp [hbr]⟩)

theorem getLastAyahOfRuku_correct_consecutive_witness :
    (sortedByOrder scenario ∧ consecutiveOrders scenario ∧ rukuMono scenario ∧
      rukuStartIff scenario) ∧
    getLastAyahOfRuku scenario 1 = some sA3 ∧
    getLastAyahOfRuku scenario 3 = some sA10 ∧
    (∃ w, getLastAyahOfRuku scenario 1 = some w ∧ w ∈ scenario ∧
      w.ruku_global = 1 ∧
      ∀ b ∈ scenario, b.ruku_global = 1 → b.global_order ≤ w.global_order) :=
  ⟨⟨by decide, by decide, by decide, by decide⟩, by decide, by decide,
   getLastAyahOfRuku_correct_consecutive scenario 1 (by decide) (by decide) (by decide)
     (by decide) ⟨sA1, by decide, by decide⟩⟩
